import Mathlib

/-!
Verification development for the DDoS-flow ML pipeline
(`model_optimized.py`, class `OptimizedDDoSAnalysis`).

The numeric model uses exact rationals extended with `+inf`, `-inf` and
`NaN` (type `EF` below), mirroring the IEEE semantics pandas/numpy rely
on for the operations the pipeline performs (median/quantile with
NaN-skipping, `fillna`, `replace(inf, nan)`, `std` based
constant-column dropping, `clip`).  Float rounding plays no role in any
claim considered here, so rationals are an adequate carrier.
-/

namespace DDoS

/-! ## Exact rational arithmetic helpers

`Rat.add`/`Rat.mul`/... are `@[irreducible]` in this toolchain, which
blocks kernel evaluation; the helpers below are written with `mkRat`
(which does evaluate) and proved equal to the standard operations. -/

def qadd (a b : ℚ) : ℚ := mkRat (a.num * b.den + b.num * a.den) (a.den * b.den)

def qneg (a : ℚ) : ℚ := mkRat (-a.num) a.den

def qsub (a b : ℚ) : ℚ := qadd a (qneg b)

def qmul (a b : ℚ) : ℚ := mkRat (a.num * b.num) (a.den * b.den)

def qdivNat (a : ℚ) (n : ℕ) : ℚ := mkRat a.num (a.den * n)

/-- Floor of a nonnegative rational, kernel-computable. -/
def qfloor (p : ℚ) : ℕ := p.num.toNat / p.den

lemma qadd_eq (a b : ℚ) : qadd a b = a + b := by
  have ha : (a.den : ℚ) ≠ 0 := Nat.cast_ne_zero.mpr a.den_nz
  have hb : (b.den : ℚ) ≠ 0 := Nat.cast_ne_zero.mpr b.den_nz
  rw [qadd, Rat.mkRat_eq_div]
  push_cast
  rw [eq_comm]
  conv_lhs => rw [← Rat.num_div_den a, ← Rat.num_div_den b]
  field_simp

lemma qneg_eq (a : ℚ) : qneg a = -a := by
  have ha : (a.den : ℚ) ≠ 0 := Nat.cast_ne_zero.mpr a.den_nz
  rw [qneg, Rat.mkRat_eq_div]
  push_cast
  rw [neg_div, Rat.num_div_den]

lemma qmul_eq (a b : ℚ) : qmul a b = a * b := by
  have ha : (a.den : ℚ) ≠ 0 := Nat.cast_ne_zero.mpr a.den_nz
  have hb : (b.den : ℚ) ≠ 0 := Nat.cast_ne_zero.mpr b.den_nz
  rw [qmul, Rat.mkRat_eq_div]
  push_cast
  rw [eq_comm]
  conv_lhs => rw [← Rat.num_div_den a, ← Rat.num_div_den b]
  field_simp

lemma qsub_eq (a b : ℚ) : qsub a b = a - b := by
  rw [qsub, qadd_eq, qneg_eq, sub_eq_add_neg]

lemma qdivNat_eq (a : ℚ) (n : ℕ) : qdivNat a n = a / n := by
  have ha : (a.den : ℚ) ≠ 0 := Nat.cast_ne_zero.mpr a.den_nz
  rw [qdivNat, Rat.mkRat_eq_div]
  push_cast
  rw [div_mul_eq_div_div, Rat.num_div_den]

lemma qfloor_eq (p : ℚ) (hp : 0 ≤ p) : qfloor p = ⌊p⌋₊ := by
  rw [← Int.floor_toNat, Rat.floor_def]
  have hnum : 0 ≤ p.num := Rat.num_nonneg.2 hp
  obtain ⟨n, hn⟩ := Int.eq_ofNat_of_zero_le hnum
  rw [qfloor, hn]
  norm_num
  rfl

/-! ## Extended floats: rationals with infinities and NaN -/

/-- Value of a float-typed pandas cell: a finite rational, `+inf`,
`-inf`, or `NaN`. -/
inductive EF where
  | fin : ℚ → EF
  | pinf : EF
  | ninf : EF
  | nan : EF
deriving DecidableEq, Repr

namespace EF

def isNan : EF → Bool
  | nan => true
  | _ => false

def isFin : EF → Bool
  | fin _ => true
  | _ => false

/-- IEEE addition on extended values; `inf + -inf = NaN`, NaN propagates. -/
def add : EF → EF → EF
  | fin a, fin b => fin (qadd a b)
  | fin _, pinf => pinf
  | fin _, ninf => ninf
  | pinf, fin _ => pinf
  | pinf, pinf => pinf
  | pinf, ninf => nan
  | ninf, fin _ => ninf
  | ninf, pinf => nan
  | ninf, ninf => ninf
  | _, _ => nan

def neg : EF → EF
  | fin a => fin (qneg a)
  | pinf => ninf
  | ninf => pinf
  | nan => nan

def sub (a b : EF) : EF := a.add b.neg

/-- IEEE multiplication; `0 * inf = NaN`, NaN propagates. -/
def mul : EF → EF → EF
  | fin a, fin b => fin (qmul a b)
  | fin a, pinf => if 0 < a then pinf else if a < 0 then ninf else nan
  | fin a, ninf => if 0 < a then ninf else if a < 0 then pinf else nan
  | pinf, fin b => if 0 < b then pinf else if b < 0 then ninf else nan
  | ninf, fin b => if 0 < b then ninf else if b < 0 then pinf else nan
  | pinf, pinf => pinf
  | pinf, ninf => ninf
  | ninf, pinf => ninf
  | ninf, ninf => pinf
  | _, _ => nan

/-- Multiplication by a finite rational scalar. -/
def smul (t : ℚ) (x : EF) : EF := (fin t).mul x

/-- Division by a natural (used for means/variances); division by zero
gives NaN, matching pandas on empty aggregations. -/
def divNat (x : EF) (n : ℕ) : EF :=
  if n = 0 then nan
  else match x with
    | fin a => fin (qdivNat a n)
    | pinf => pinf
    | ninf => ninf
    | nan => nan

/-- IEEE strict comparison: any comparison involving NaN is false. -/
def ltB : EF → EF → Bool
  | fin a, fin b => decide (a < b)
  | fin _, pinf => true
  | ninf, fin _ => true
  | ninf, pinf => true
  | _, _ => false

/-- Comparison used in theorem statements: `a ≤ b` on non-NaN values. -/
def leB : EF → EF → Bool
  | nan, nan => true
  | _, nan => true
  | nan, _ => false
  | ninf, _ => true
  | _, ninf => false
  | fin a, fin b => decide (a ≤ b)
  | fin _, pinf => true
  | pinf, pinf => true
  | pinf, fin _ => false

end EF

/-- Total order used to sort column values (`-inf < finite < +inf`,
NaN placed last as numpy does; NaN is always filtered out before
sorting in this development). -/
def efLE (a b : EF) : Prop := EF.leB a b = true

instance : DecidableRel efLE := fun a b => inferInstanceAs (Decidable (_ = true))

instance : IsTotal EF efLE := by
  constructor
  intro a b
  cases a <;> cases b <;> simp [efLE, EF.leB] <;> exact le_total _ _

instance : IsTrans EF efLE := by
  constructor
  intro a b c
  cases a <;> cases b <;> cases c <;> simp [efLE, EF.leB]
  exact fun h h' => le_trans h h'

/-- Sorting of column values (insertion sort; value-faithful model of
`numpy.sort`, which produces the same sorted value sequence). -/
def sortEF (l : List EF) : List EF := List.insertionSort efLE l

/-- Linear-interpolation index lookup used by numpy percentile:
virtual position `p = q * (n - 1)`, result `x_i + g * (x_{i+1} - x_i)`. -/
def interpEF (s : List EF) (q : ℚ) : EF :=
  let n := s.length
  let p : ℚ := qmul q (qsub (n : ℚ) 1)
  let i : ℕ := qfloor p
  let g : ℚ := qsub p (i : ℚ)
  if i + 1 < n then (s.getD i .nan).add (EF.smul g ((s.getD (i + 1) .nan).sub (s.getD i .nan)))
  else s.getD i .nan

/-- Column quantile as `pandas.DataFrame.quantile` computes it: drop
NaNs, sort, linearly interpolate; NaN on an all-NaN column. -/
def quantileEF (col : List EF) (q : ℚ) : EF :=
  let v := col.filter (fun x => !x.isNan)
  if v.isEmpty then .nan else interpEF (sortEF v) q

/-- Column median (`pandas` median = quantile 0.5, NaN-skipping). -/
def medianEF (col : List EF) : EF := quantileEF col (mkRat 1 2)

/-! ## Dataset Cleaner (`preprocess_unified_data`, step 7)

Matrices are column-major: a matrix is a list of columns, each a list
of cell values. -/

/-- One `X.fillna(X.median())` pass on a column: NaN cells take the
column's NaN-skipping median (which may itself be infinite or NaN). -/
def fillnaCol (col : List EF) : List EF :=
  let m := medianEF col
  col.map (fun v => if v.isNan then m else v)

/-- The `X.replace([np.inf, -np.inf], np.nan)` pass on a column. -/
def replaceInfCol (col : List EF) : List EF :=
  col.map (fun v => match v with
    | .pinf => .nan
    | .ninf => .nan
    | x => x)

/-- Steps (c)-(d) of the cleaner on one column: median imputation,
infinity replacement, re-imputation. -/
def imputeCol (col : List EF) : List EF := fillnaCol (replaceInfCol (fillnaCol col))

/-- Sample variance (`ddof = 1`, NaN-skipping) of a column; NaN when
fewer than two valid values, matching `pandas.Series.std`. -/
def varEF (col : List EF) : EF :=
  let v := col.filter (fun x => !x.isNan)
  if v.length ≤ 1 then .nan
  else
    let μ := (v.foldr EF.add (.fin 0)).divNat v.length
    ((v.map (fun x => (x.sub μ).mul (x.sub μ))).foldr EF.add (.fin 0)).divNat (v.length - 1)

/-- The `X.std() == 0` test of the constant-column filter.  `std` is
the square root of `varEF`; on the extended reals `sqrt x = 0` iff
`x = 0` (and `sqrt` maps NaN to NaN, `+inf` to `+inf`), so the test is
evaluated on the variance directly. -/
def stdZeroB (col : List EF) : Bool := decide (varEF col = EF.fin 0)

/-- The `X.drop(columns=X.columns[X.std() == 0])` pass. -/
def dropConstant (m : List (List EF)) : List (List EF) :=
  m.filter (fun col => !stdZeroB col)

/-- First quartile of a column, as `X.quantile(0.25)`. -/
def q1EF (col : List EF) : EF := quantileEF col (mkRat 1 4)

/-- Third quartile of a column, as `X.quantile(0.75)`. -/
def q3EF (col : List EF) : EF := quantileEF col (mkRat 3 4)

/-- Lower clipping bound `Q1 - 3 * IQR` of a column. -/
def loBound (col : List EF) : EF :=
  (q1EF col).sub (EF.smul 3 ((q3EF col).sub (q1EF col)))

/-- Upper clipping bound `Q3 + 3 * IQR` of a column. -/
def hiBound (col : List EF) : EF :=
  (q3EF col).add (EF.smul 3 ((q3EF col).sub (q1EF col)))

/-- One cell of `X.clip(lower=.., upper=.., axis=1)`: NaN cells stay
NaN, comparisons against a NaN bound are false (no clipping on that
side), otherwise clamp into `[lo, hi]`. -/
def clipVal (lo hi v : EF) : EF :=
  if v.isNan then v
  else if EF.ltB v lo then lo
  else if EF.ltB hi v then hi
  else v

/-- The outlier-clipping pass on one column, bounds computed from that
same column. -/
def clipCol (col : List EF) : List EF :=
  col.map (clipVal (loBound col) (hiBound col))

/-- Steps (c)-(f) of the cleaner on the numeric matrix: impute, drop
zero-variance columns, clip outliers per column. -/
def cleanCols (m : List (List EF)) : List (List EF) :=
  (dropConstant (m.map imputeCol)).map clipCol

/-- The matrix state just before the clipping pass. -/
def preClip (m : List (List EF)) : List (List EF) :=
  dropConstant (m.map imputeCol)

/-! ## Categorical encoding and numeric selection (steps 5-6) -/

/-- A feature column as loaded: object-typed (strings) or float-typed. -/
inductive PCol where
  | strCol : List String → PCol
  | numCol : List EF → PCol
deriving DecidableEq

/-- Feature table: named columns, target column excluded upstream. -/
abbrev FTable : Type := List (String × PCol)

/-- Model of `sklearn.LabelEncoder.fit_transform`: classes are the sorted
distinct values, each cell becomes its class index. -/
def labelEncode (vs : List String) : List EF :=
  let classes := (List.insertionSort (fun a b : String => a ≤ b) vs).dedup
  vs.map (fun s => EF.fin ((List.indexOf s classes : ℕ) : ℚ))

/-- Step 5: every object-typed column except `src_ip`/`dst_ip` is
integer-encoded in place. -/
def encodeTable (t : FTable) : FTable :=
  t.map (fun p => match p.2 with
    | .strCol vs =>
        if p.1 = "src_ip" ∨ p.1 = "dst_ip" then p
        else (p.1, .numCol (labelEncode vs))
    | .numCol _ => p)

/-- Step 6: `X[X.select_dtypes(exclude='object').columns]` — keep the
float-typed columns in order (`astype(np.float32)` is the identity in
this exact-rational model). -/
def numericMatrix (t : FTable) : List (List EF) :=
  (encodeTable t).filterMap (fun p => match p.2 with
    | .numCol vs => some vs
    | _ => none)

/-- The full cleaning path of `preprocess_unified_data` from the raw
feature table to the cleaned feature matrix (steps 5-7); the 80/20
split is drawn from this matrix afterwards. -/
def cleanTable (t : FTable) : List (List EF) := cleanCols (numericMatrix t)

/-! ## Schema Normalizer (`normalize_column_names`) -/

/-- Whitespace test of Python `str.strip` (ASCII whitespace). -/
def isWS (c : Char) : Bool :=
  (c == ' ') || (c == '\t') || (c == '\n') || (c == '\r') || (c == '\x0b') || (c == '\x0c')

/-- Python `str.strip`: drop leading and trailing whitespace. -/
def stripL (l : List Char) : List Char :=
  (((l.dropWhile isWS).reverse).dropWhile isWS).reverse

/-- ASCII lower-case table of Python `str.lower` (the pipeline's
column names are ASCII). -/
def lowPairs : List (Char × Char) :=
  [('A', 'a'), ('B', 'b'), ('C', 'c'), ('D', 'd'), ('E', 'e'), ('F', 'f'),
   ('G', 'g'), ('H', 'h'), ('I', 'i'), ('J', 'j'), ('K', 'k'), ('L', 'l'),
   ('M', 'm'), ('N', 'n'), ('O', 'o'), ('P', 'p'), ('Q', 'q'), ('R', 'r'),
   ('S', 's'), ('T', 't'), ('U', 'u'), ('V', 'v'), ('W', 'w'), ('X', 'x'),
   ('Y', 'y'), ('Z', 'z')]

def lowChar (c : Char) : Char := (lowPairs.lookup c).getD c

/-- ASCII upper-case table of Python `str.upper` (label tokens are
ASCII). -/
def upPairs : List (Char × Char) :=
  [('a', 'A'), ('b', 'B'), ('c', 'C'), ('d', 'D'), ('e', 'E'), ('f', 'F'),
   ('g', 'G'), ('h', 'H'), ('i', 'I'), ('j', 'J'), ('k', 'K'), ('l', 'L'),
   ('m', 'M'), ('n', 'N'), ('o', 'O'), ('p', 'P'), ('q', 'Q'), ('r', 'R'),
   ('s', 'S'), ('t', 'T'), ('u', 'U'), ('v', 'V'), ('w', 'W'), ('x', 'X'),
   ('y', 'Y'), ('z', 'Z')]

def upChar (c : Char) : Char := (upPairs.lookup c).getD c

/-- The in-place header transform
`df.columns.str.strip().str.replace(' ', '_').str.lower()`. -/
def basicNorm (s : String) : String :=
  ⟨((stripL s.data).map (fun c => if c = ' ' then '_' else c)).map lowChar⟩

/-- The static `column_mappings` table, transcribed entry for entry
from `OptimizedDDoSAnalysis.__init__` (the Python dict collapses the
duplicated keys `FIN/SYN/RST/ACK Flag Count` to the same values, so a
first-match association list is equivalent). -/
def columnMappings : List (String × String) :=
  [("Flow Packets/s", "flow_pkts_s"),
   ("Packet Length Mean", "pkt_len_mean"),
   ("Flow IAT Mean", "flow_iat_mean"),
   ("SYN Flag Count", "syn_flag_cnt"),
   ("ACK Flag Count", "ack_flag_cnt"),
   ("RST Flag Count", "rst_flag_cnt"),
   ("FIN Flag Count", "fin_flag_cnt"),
   ("Flow Duration", "flow_duration"),
   ("Flow Bytes/s", "flow_byts_s"),
   ("Down/Up Ratio", "down_up_ratio"),
   ("Fwd Packets/s", "fwd_pkts_s"),
   ("Bwd Packets/s", "bwd_pkts_s"),
   ("Flow IAT Std", "flow_iat_std"),
   ("Source IP", "src_ip"),
   ("Protocol", "protocol"),
   ("Label", "label"),
   ("Timestamp", "timestamp"),
   ("Total Fwd Packets", "tot_fwd_pkts"),
   ("Total Backward Packets", "tot_bwd_pkts"),
   ("Total Length of Fwd Packets", "totlen_fwd_pkts"),
   ("Total Length of Bwd Packets", "totlen_bwd_pkts"),
   ("Fwd Packet Length Max", "fwd_pkt_len_max"),
   ("Fwd Packet Length Min", "fwd_pkt_len_min"),
   ("Fwd Packet Length Mean", "fwd_pkt_len_mean"),
   ("Fwd Packet Length Std", "fwd_pkt_len_std"),
   ("Bwd Packet Length Max", "bwd_pkt_len_max"),
   ("Bwd Packet Length Min", "bwd_pkt_len_min"),
   ("Bwd Packet Length Mean", "bwd_pkt_len_mean"),
   ("Bwd Packet Length Std", "bwd_pkt_len_std"),
   ("Packet Length Max", "pkt_len_max"),
   ("Packet Length Min", "pkt_len_min"),
   ("Packet Length Std", "pkt_len_std"),
   ("Packet Length Variance", "pkt_len_var"),
   ("PSH Flag Count", "psh_flag_cnt"),
   ("URG Flag Count", "urg_flag_cnt"),
   ("CWE Flag Count", "cwr_flag_count"),
   ("ECE Flag Count", "ece_flag_cnt"),
   ("Init_Win_bytes_forward", "init_fwd_win_byts"),
   ("Init_Win_bytes_backward", "init_bwd_win_byts"),
   ("act_data_pkt_fwd", "fwd_act_data_pkts"),
   ("min_seg_size_forward", "fwd_seg_size_min"),
   ("Active Mean", "active_mean"),
   ("Active Std", "active_std"),
   ("Active Max", "active_max"),
   ("Active Min", "active_min"),
   ("Idle Mean", "idle_mean"),
   ("Idle Std", "idle_std"),
   ("Idle Max", "idle_max"),
   ("Idle Min", "idle_min"),
   ("src_ip", "src_ip"), ("dst_ip", "dst_ip"),
   ("src_port", "src_port"), ("dst_port", "dst_port"),
   ("protocol", "protocol"), ("timestamp", "timestamp"),
   ("flow_duration", "flow_duration"), ("flow_byts_s", "flow_byts_s"),
   ("flow_pkts_s", "flow_pkts_s"), ("fwd_pkts_s", "fwd_pkts_s"),
   ("bwd_pkts_s", "bwd_pkts_s"), ("pkt_len_mean", "pkt_len_mean"),
   ("flow_iat_mean", "flow_iat_mean"), ("flow_iat_std", "flow_iat_std"),
   ("fin_flag_cnt", "fin_flag_cnt"), ("syn_flag_cnt", "syn_flag_cnt"),
   ("rst_flag_cnt", "rst_flag_cnt"), ("ack_flag_cnt", "ack_flag_cnt"),
   ("down_up_ratio", "down_up_ratio"), ("label", "label")]

/-- Prefix test on character lists. -/
def isPrefixB : List Char → List Char → Bool
  | [], _ => true
  | _ :: _, [] => false
  | a :: as, b :: bs => a == b && isPrefixB as bs

/-- Contiguous-substring test on character lists. -/
def isInfixB : List Char → List Char → Bool
  | sub, [] => sub.isEmpty
  | sub, c :: t => isPrefixB sub (c :: t) || isInfixB sub t

/-- Python substring test `sub in s`. -/
def containsSub (s sub : String) : Bool := isInfixB sub.data s.data

/-- The per-column mapping step of `normalize_column_names`: direct
lookup in `column_mappings` on the already lower-cased name, then the
ordered substring rules, else pass through unchanged. -/
def mapOneColumn (c : String) : String :=
  match columnMappings.lookup c with
  | some v => v
  | none =>
    if containsSub c ("source") && containsSub c ("ip") then "src_ip"
    else if containsSub c ("destination") && containsSub c ("ip") then "dst_ip"
    else if containsSub c ("source") && containsSub c ("port") then "src_port"
    else if containsSub c ("destination") && containsSub c ("port") then "dst_port"
    else if c = "class" ∨ c = "attack" ∨ c = "type" then "label"
    else c

/-- A data frame: header row plus opaque cell data.  Only the headers
are touched by the Schema Normalizer. -/
structure DF (δ : Type) where
  columns : List String
  data : δ
deriving DecidableEq

/-- The method `normalize_column_names(df)`.  The first component is the frame the
method returns (`df.rename(columns=current_mapping)`); the second is
the state of the *caller's* frame after the call — the method's first
statement `df.columns = df.columns.str.strip()...` assigns new labels
to the argument object itself. -/
def normalizeColumnNames {δ : Type} (df : DF δ) : DF δ × DF δ :=
  let mutated : DF δ := ⟨df.columns.map basicNorm, df.data⟩
  (⟨mutated.columns.map mapOneColumn, mutated.data⟩, mutated)

/-! ## Label Standardizer -/

/-- The fixed `label_mapping` collapsing table of
`preprocess_unified_data`, step 4. -/
def labelTable : List (String × String) :=
  [("BENIGN", "BENIGN"),
   ("NORMAL", "BENIGN"),
   ("DNS", "DNS"),
   ("NTP", "NTP"),
   ("HTTP", "HTTP"),
   ("LDAP", "LDAP"),
   ("MSSQL", "MSSQL"),
   ("NETBIOS", "NetBIOS"),
   ("NETBIOS_NAME_SERVICE", "NetBIOS"),
   ("PORTMAP", "Portmap"),
   ("RECURSIVE_GET", "RECURSIVE_GET"),
   ("SLOWLORIS", "SLOWLORIS"),
   ("SLOW_POST", "SLOW_POST"),
   ("SYN", "SYN"),
   ("UDP", "UDP"),
   ("UDPLAG", "UDPLag"),
   ("DDOS", "UDP"),
   ("ATTACK", "UDP"),
   ("FLOOD", "UDP")]

def stripStr (s : String) : String := ⟨stripL s.data⟩

def upperStr (s : String) : String := ⟨s.data.map upChar⟩

/-- Label standardization: the `.str.strip().str.upper()` pass of
`load_all_datasets` followed by `map(label_mapping).fillna(...)` of
`preprocess_unified_data` (pass-through for unmapped tokens). -/
def standardizeLabel (s : String) : String :=
  let u := upperStr (stripStr s)
  (labelTable.lookup u).getD u

/-! ## Model Search & Ensemble Builder (`train_best_model`) -/

/-- One successfully trained candidate: its display name and held-out
weighted F1 (the only fields the selection rule reads). -/
structure CandEval where
  name : String
  f1 : ℚ
deriving DecidableEq

/-- The selection update `if f1 > best_score: best_score, best_model,
best_model_name = ...` with initial state `(None, 0, "")`. -/
def selectStep (acc : String × ℚ) (c : CandEval) : String × ℚ :=
  if acc.2 < c.f1 then (c.name, c.f1) else acc

/-- The candidate loop's provisional selection (name and F1); the name
is `""` exactly while `best_model` is still `None`. -/
def selectBest (cands : List CandEval) : String × ℚ :=
  cands.foldl selectStep (("" : String), (0 : ℚ))

/-- Top three results by test F1: the stable descending Python sort
of the results by their test F1, then the first three.  Insertion
sort with `b.f1 ≤ a.f1` is stable and descending. -/
def topThree (cands : List CandEval) : List CandEval :=
  (List.insertionSort (fun a b : CandEval => b.f1 ≤ a.f1) cands).take 3

/-- The selection logic of `train_best_model`, abstracted over the
externally trained learners: `cands` are the successful candidates in
evaluation order with their held-out F1, `ensembleF1` the held-out F1
the soft-voting ensemble obtains when it is built.  Returns the
selected (name, F1) and the ensemble membership when one was built. -/
def trainBestModel (cands : List CandEval) (ensembleF1 : ℚ) :
    (String × ℚ) × Option (List CandEval) :=
  let prov := selectBest cands
  if 3 ≤ cands.length then
    if prov.2 < ensembleF1 then ((("Ensemble" : String), ensembleF1), some (topThree cands))
    else (prov, some (topThree cands))
  else (prov, none)

/-! ## Split with stratification fallback -/

/-- Result of a train/test split. -/
structure SplitResult (ρ γ : Type) where
  XTrain : List ρ
  XTest : List ρ
  yTrain : List γ
  yTest : List γ
deriving DecidableEq

/-- Shape of `sklearn.model_selection.train_test_split` at fixed
`test_size=0.2`: features, labels, `random_state`, optional `stratify`
argument; raises (`Except.error`) when stratification is infeasible. -/
def TTSFun (ρ γ : Type) : Type :=
  List ρ → List γ → ℕ → Option (List γ) → Except String (SplitResult ρ γ)

/-- The `try/except ValueError` fallback of `preprocess_unified_data`:
stratified split at seed 42, and on failure the unstratified split at
the same seed 42. -/
def splitWithFallback {ρ γ : Type} (tts : TTSFun ρ γ) (X : List ρ) (y : List γ) :
    Except String (SplitResult ρ γ) :=
  match tts X y 42 (some y) with
  | .ok s => .ok s
  | .error _ => tts X y 42 none

/-- Deterministic seed-indexed split used to instantiate `TTSFun` in
witnesses: rows whose (index + seed) is divisible by 5 form the ~20%
test side.  Modelled from sklearn's documented contract (deterministic
given `random_state`). -/
def detSplit {ρ γ : Type} (X : List ρ) (y : List γ) (seed : ℕ) : SplitResult ρ γ :=
  let testIdx : ℕ → Bool := fun i => (i + seed) % 5 = 0
  { XTrain := (X.enum.filter (fun p => !testIdx p.1)).map (·.2)
    XTest := (X.enum.filter (fun p => testIdx p.1)).map (·.2)
    yTrain := (y.enum.filter (fun p => !testIdx p.1)).map (·.2)
    yTest := (y.enum.filter (fun p => testIdx p.1)).map (·.2) }

/-- Instantiation of `TTSFun` modelled from sklearn's documented
behaviour: the stratified variant raises `ValueError` when the least
populated class has fewer than 2 members; the unstratified variant
always succeeds and is a pure function of the seed. -/
def modelTTS {ρ γ : Type} [DecidableEq γ] : TTSFun ρ γ :=
  fun X y seed strat =>
    match strat with
    | some s =>
        if s.any (fun c => s.count c < 2) then
          .error ("The least populated class in y has only 1 member")
        else .ok (detSplit X y seed)
    | none => .ok (detSplit X y seed)

/-! ## Inference (`predict_with_confidence`) -/

/-- A persisted model as the inference path sees it: a `predict`
method and, when the learner exposes per-class probabilities, a
`predict_proba` method. -/
structure PredModel (ρ lab : Type) where
  predict : List ρ → List lab
  predictProba : Option (List ρ → List (List ℚ))

/-- Row maximum `np.max(row)` (numpy requires the row nonempty; a
fitted classifier has at least one class). -/
def npMax (l : List ℚ) : ℚ := l.foldl max (l.headD 0)

/-- The method `predict_with_confidence(X)`: the argument `X` is handed to the
model exactly as given (no normalization, cleaning, clipping or
scaling happens on this path); confidence is the row-wise maximum
class probability, or the constant `0.8` for models without
`predict_proba`. -/
def predictWithConfidence {ρ lab : Type} (m : PredModel ρ lab) (X : List ρ) :
    List lab × List ℚ :=
  match m.predictProba with
  | some pp => (m.predict X, (pp X).map npMax)
  | none => (m.predict X, List.replicate X.length (mkRat 4 5))

/-! ## Artifact Store (`save_model_and_scaler`) -/

/-- The three units of the persisted bundle. -/
inductive ArtifactKind where
  | model
  | scaler
  | metadata
deriving DecidableEq

/-- The pipeline state fields `save_model_and_scaler` reads. -/
structure PipelineState (μ σ : Type) where
  bestModel : Option μ
  scaler : Option σ

/-- The method `save_model_and_scaler(model_name)`: when both `best_model` and
`scaler` are set (sklearn estimators have no custom truthiness, so the
Python `if self.best_model and self.scaler` is exactly a not-`None`
test) it dumps the three units and returns their paths, otherwise it
writes nothing and returns `(None, None, None)`.  The first component
lists the files written. -/
def saveModelAndScaler {μ σ : Type} (st : PipelineState μ σ) (name : String) :
    List (String × ArtifactKind) × (Option String × Option String × Option String) :=
  if st.bestModel.isSome && st.scaler.isSome then
    ([(name ++ (".pkl"), ArtifactKind.model),
      (name ++ ("_scaler.pkl"), ArtifactKind.scaler),
      (name ++ ("_metadata.pkl"), ArtifactKind.metadata)],
     (some (name ++ (".pkl")), some (name ++ ("_scaler.pkl")),
      some (name ++ ("_metadata.pkl"))))
  else ([], (none, none, none))

/-! ## Claim C7: stratification fallback -/

/-- C7: whenever the stratified 80/20 split is infeasible (the
stratified call raises) and the unstratified split succeeds — as
sklearn's unstratified `train_test_split` always does — the
`try/except` wrapper does not raise and returns exactly the
unstratified random split at the same fixed seed 42; being the value
of a pure function of the data and that seed, the fallback result is
deterministic given the seed. -/
theorem C7_split_fallback {ρ γ : Type} (tts : TTSFun ρ γ) (X : List ρ) (y : List γ)
    (hstrat : ∃ e, tts X y 42 (some y) = .error e)
    (hok : ∃ s, tts X y 42 none = .ok s) :
    splitWithFallback tts X y = tts X y 42 none
    ∧ ∃ s, splitWithFallback tts X y = .ok s := by
  obtain ⟨e, he⟩ := hstrat
  obtain ⟨s, hs⟩ := hok
  rw [splitWithFallback, he]
  exact ⟨rfl, s, hs⟩

/-- C7 witness (Scenario C): five classes, class `e` having a single
sample, so stratification is infeasible; the wrapped split succeeds
and equals the unstratified seed-42 split. -/
theorem C7_split_fallback_witness :
    splitWithFallback (modelTTS (γ := String)) [10, 20, 30, 40, 50, 60, 70, 80, 90]
        ["a", "a", "b", "b", "c", "c", "d", "d", "e"]
      = modelTTS [10, 20, 30, 40, 50, 60, 70, 80, 90]
          ["a", "a", "b", "b", "c", "c", "d", "d", "e"] 42 none
    ∧ (splitWithFallback (modelTTS (γ := String)) [10, 20, 30, 40, 50, 60, 70, 80, 90]
        ["a", "a", "b", "b", "c", "c", "d", "d", "e"]).isOk = true := by
  have h := C7_split_fallback (modelTTS (γ := String)) [10, 20, 30, 40, 50, 60, 70, 80, 90]
    ["a", "a", "b", "b", "c", "c", "d", "d", "e"]
    ⟨"The least populated class in y has only 1 member", rfl⟩
    ⟨detSplit [10, 20, 30, 40, 50, 60, 70, 80, 90]
        ["a", "a", "b", "b", "c", "c", "d", "d", "e"] 42, rfl⟩
  refine ⟨h.1, ?_⟩
  obtain ⟨s, hs⟩ := h.2
  rw [hs]
  rfl

/-! ## Claim C8: confidence bounds of `predict_with_confidence` -/

lemma foldl_max_mem (t : List ℚ) (a : ℚ) : t.foldl max a = a ∨ t.foldl max a ∈ t := by
  induction t generalizing a with
  | nil => exact Or.inl rfl
  | cons b t ih =>
    rw [List.foldl_cons]
    rcases ih (max a b) with h | h
    · rcases max_choice a b with hm | hm
      · exact Or.inl (h.trans hm)
      · exact Or.inr (by rw [h, hm]; exact List.mem_cons_self _ _)
    · exact Or.inr (List.mem_cons_of_mem _ h)

/-- Maximum of a nonempty list is one of its elements. -/
lemma npMax_mem (l : List ℚ) (h : l ≠ []) : npMax l ∈ l := by
  match l with
  | a :: t =>
    rw [npMax]
    simp only [List.headD_cons, List.foldl_cons, max_self]
    rcases foldl_max_mem t a with h1 | h1
    · rw [h1]; exact List.mem_cons_self _ _
    · exact List.mem_cons_of_mem _ h1

/-- C8: for every input batch and every supported model,
`predict_with_confidence` returns one confidence per row lying in
`[0, 1]`; when the model exposes per-class probabilities (rows of
`predict_proba` being probability vectors over at least one class) a
row's confidence is its maximum class probability, otherwise it is the
fixed constant `0.8`. -/
theorem C8_confidence_bounds {ρ lab : Type} (m : PredModel ρ lab) (X : List ρ)
    (hpp : ∀ pp, m.predictProba = some pp →
      (pp X).length = X.length
      ∧ ∀ row ∈ pp X, row ≠ [] ∧ ∀ p ∈ row, 0 ≤ p ∧ p ≤ 1) :
    (predictWithConfidence m X).2.length = X.length
    ∧ (∀ c ∈ (predictWithConfidence m X).2, 0 ≤ c ∧ c ≤ 1)
    ∧ (∀ pp, m.predictProba = some pp →
        (predictWithConfidence m X).2 = (pp X).map npMax)
    ∧ (m.predictProba = none →
        (predictWithConfidence m X).2 = List.replicate X.length (mkRat 4 5)) := by
  match hm : m.predictProba with
  | none =>
    refine ⟨?_, ?_, ?_, ?_⟩
    · rw [predictWithConfidence, hm, List.length_replicate]
    · intro c hc
      rw [predictWithConfidence, hm] at hc
      have := List.eq_of_mem_replicate hc
      subst this
      constructor
      · rw [Rat.mkRat_eq_div]; norm_num
      · rw [Rat.mkRat_eq_div]; norm_num
    · intro pp hpp2
      exact absurd hpp2 (by simp)
    · intro _
      rw [predictWithConfidence, hm]
  | some pp =>
    obtain ⟨hlen, hrows⟩ := hpp pp hm
    refine ⟨?_, ?_, ?_, ?_⟩
    · rw [predictWithConfidence, hm, List.length_map, hlen]
    · intro c hc
      rw [predictWithConfidence, hm] at hc
      obtain ⟨row, hrow, hceq⟩ := List.mem_map.1 hc
      obtain ⟨hne, hbounds⟩ := hrows row hrow
      have hmem := npMax_mem row hne
      subst hceq
      exact hbounds _ hmem
    · intro pp2 hpp2
      injection hpp2 with h2
      subst h2
      rw [predictWithConfidence, hm]
    · intro hnone
      exact absurd hnone (by simp)

/-- Probability-exposing probe model used by the C8 witness. -/
def probaProbe : PredModel ℚ Bool :=
  { predict := fun X => X.map (fun _ => true)
    predictProba := some (fun X => X.map (fun _ => [mkRat 1 2, mkRat 1 4])) }

/-- C8 witness: for a concrete probability-exposing model and a
two-row batch, the hypotheses evaluate and the confidences are the
row-wise maxima, in `[0, 1]`. -/
theorem C8_confidence_bounds_witness :
    (predictWithConfidence probaProbe [3, 7]).2.length = ([3, 7] : List ℚ).length
    ∧ (predictWithConfidence probaProbe [3, 7]).2.all
        (fun c => decide (0 ≤ c) && decide (c ≤ 1)) = true
    ∧ (predictWithConfidence probaProbe [3, 7]).2
        = (([3, 7] : List ℚ).map (fun _ => [mkRat 1 2, mkRat 1 4])).map npMax := by
  have h := C8_confidence_bounds probaProbe [3, 7]
    (fun pp hpe => by
      injection hpe with h2
      subst h2
      decide)
  refine ⟨h.1, ?_, ?_⟩
  · rw [List.all_eq_true]
    intro c hc
    have h2 := h.2.1 c hc
    rw [decide_eq_true h2.1, decide_eq_true h2.2]
    rfl
  · exact h.2.2.1 (fun X => X.map (fun _ => [mkRat 1 2, mkRat 1 4])) rfl

/-! ## Quantile and cleaning lemmas (for claims C1 and C3) -/

lemma exists_map_fin {s : List EF} (h : ∀ x ∈ s, x.isFin = true) :
    ∃ L : List ℚ, s = L.map EF.fin := by
  induction s with
  | nil => exact ⟨[], rfl⟩
  | cons a t ih =>
    obtain ⟨L, hL⟩ := ih (fun x hx => h x (List.mem_cons_of_mem _ hx))
    cases a with
    | fin x => exact ⟨x :: L, by rw [List.map_cons, hL]⟩
    | pinf => cases h EF.pinf (List.mem_cons_self _ _)
    | ninf => cases h EF.ninf (List.mem_cons_self _ _)
    | nan => cases h EF.nan (List.mem_cons_self _ _)

/-- Rational-list counterpart of `interpEF`, used to reason about the
all-finite case. -/
def interpQ (L : List ℚ) (q : ℚ) : ℚ :=
  let n := L.length
  let p : ℚ := q * ((n : ℚ) - 1)
  let i : ℕ := ⌊p⌋₊
  let g : ℚ := p - (i : ℚ)
  if i + 1 < n then L.getD i 0 + g * (L.getD (i + 1) 0 - L.getD i 0)
  else L.getD i 0

lemma getD_map_fin (L : List ℚ) (j : ℕ) (hj : j < L.length) :
    (L.map EF.fin).getD j .nan = EF.fin (L.getD j 0) := by
  rw [List.getD_eq_getElem _ _ (by simpa using hj), List.getD_eq_getElem _ _ hj,
    List.getElem_map]

lemma cast_len_sub_one (n : ℕ) (hn : 1 ≤ n) : ((n - 1 : ℕ) : ℚ) = (n : ℚ) - 1 := by
  push_cast [Nat.cast_sub hn]
  ring

lemma floor_lt_len (n : ℕ) (hn : 1 ≤ n) {q : ℚ} (h0 : 0 ≤ q) (h1 : q ≤ 1) :
    ⌊q * ((n : ℚ) - 1)⌋₊ < n := by
  have hcast : (0 : ℚ) ≤ (n : ℚ) - 1 := by
    have : (1 : ℚ) ≤ (n : ℚ) := by exact_mod_cast hn
    linarith
  have hple : q * ((n : ℚ) - 1) ≤ (n : ℚ) - 1 := by
    calc q * ((n : ℚ) - 1) ≤ 1 * ((n : ℚ) - 1) := mul_le_mul_of_nonneg_right h1 hcast
    _ = (n : ℚ) - 1 := one_mul _
  have h3 : ⌊q * ((n : ℚ) - 1)⌋₊ ≤ ⌊((n : ℚ) - 1)⌋₊ := Nat.floor_le_floor hple
  have h4 : ⌊((n : ℚ) - 1)⌋₊ = n - 1 := by
    rw [← cast_len_sub_one n hn, Nat.floor_natCast]
  omega

lemma interpEF_map_fin (L : List ℚ) (hL : L ≠ []) (q : ℚ) (h0 : 0 ≤ q) (h1 : q ≤ 1) :
    interpEF (L.map EF.fin) q = EF.fin (interpQ L q) := by
  have hlen : (L.map EF.fin).length = L.length := List.length_map _ _
  have hn1 : 1 ≤ L.length := List.length_pos.2 hL
  have hcast : (0 : ℚ) ≤ (L.length : ℚ) - 1 := by
    have : (1 : ℚ) ≤ (L.length : ℚ) := by exact_mod_cast hn1
    linarith
  have hpval : qmul q (qsub ((L.length : ℚ)) 1) = q * ((L.length : ℚ) - 1) := by
    rw [qmul_eq, qsub_eq]
  have hp0 : 0 ≤ q * ((L.length : ℚ) - 1) := mul_nonneg h0 hcast
  have hfl : qfloor (q * ((L.length : ℚ) - 1)) = ⌊q * ((L.length : ℚ) - 1)⌋₊ :=
    qfloor_eq _ hp0
  have hilt : ⌊q * ((L.length : ℚ) - 1)⌋₊ < L.length := floor_lt_len _ hn1 h0 h1
  simp only [interpEF, interpQ, hlen, hpval, hfl]
  by_cases hbr : ⌊q * ((L.length : ℚ) - 1)⌋₊ + 1 < L.length
  · rw [if_pos hbr, if_pos hbr, getD_map_fin L _ hilt, getD_map_fin L _ hbr]
    show EF.fin (qadd _ (qmul _ (qadd _ (qneg _)))) = _
    apply congrArg EF.fin
    rw [qadd_eq, qmul_eq, qsub_eq, qadd_eq, qneg_eq]
    ring
  · rw [if_neg hbr, if_neg hbr, getD_map_fin L _ hilt]

lemma filter_nonNan_eq_self {col : List EF} (h : ∀ v ∈ col, v.isFin = true) :
    col.filter (fun x => !x.isNan) = col := by
  induction col with
  | nil => rfl
  | cons a t ih =>
    rw [List.filter_cons]
    have ha := h a (List.mem_cons_self _ _)
    have hna : (!a.isNan) = true := by
      cases a <;> simp_all [EF.isFin, EF.isNan]
    rw [if_pos hna, ih (fun v hv => h v (List.mem_cons_of_mem _ hv))]

lemma sortEF_all_fin {col : List EF} (h : ∀ v ∈ col, v.isFin = true) :
    ∀ v ∈ sortEF col, v.isFin = true := by
  intro v hv
  exact h v ((List.perm_insertionSort efLE col).mem_iff.1 hv)

lemma sortEF_ne_nil {col : List EF} (h : col ≠ []) : sortEF col ≠ [] := by
  intro hcon
  apply h
  have hlen := (List.perm_insertionSort efLE col).length_eq
  rw [sortEF] at hcon
  rw [hcon] at hlen
  exact List.length_eq_zero.1 hlen.symm

/-- A column whose values are all finite (or NaN) with at least one
finite member has a finite quantile, for `0 ≤ q ≤ 1`. -/
lemma quantileEF_fin {col : List EF} {q : ℚ} (h0 : 0 ≤ q) (h1 : q ≤ 1)
    (hmem : ∃ v ∈ col, v.isFin = true)
    (hall : ∀ v ∈ col, v.isFin = true ∨ v = EF.nan) :
    (quantileEF col q).isFin = true := by
  obtain ⟨w, hw, hwfin⟩ := hmem
  have hvfin : ∀ v ∈ col.filter (fun x => !x.isNan), v.isFin = true := by
    intro v hv
    have hvcol := List.mem_of_mem_filter hv
    rcases hall v hvcol with h | h
    · exact h
    · subst h
      have := List.of_mem_filter hv
      simp [EF.isNan] at this
  have hne : col.filter (fun x => !x.isNan) ≠ [] := by
    intro hcon
    have : w ∈ col.filter (fun x => !x.isNan) := by
      apply List.mem_filter.2
      refine ⟨hw, ?_⟩
      cases w <;> simp_all [EF.isFin, EF.isNan]
    rw [hcon] at this
    cases this
  rw [quantileEF]
  rw [if_neg (by simpa [List.isEmpty_iff] using hne)]
  have hsfin := sortEF_all_fin hvfin
  have hsne := sortEF_ne_nil hne
  obtain ⟨L, hL⟩ := exists_map_fin hsfin
  have hLne : L ≠ [] := by
    intro hcon
    rw [hcon] at hL
    exact hsne (by simpa using hL)
  rw [hL, interpEF_map_fin L hLne q h0 h1]
  rfl

lemma interpQ_mono (L : List ℚ) (hL : L ≠ []) (hs : List.Pairwise (· ≤ ·) L)
    {q q' : ℚ} (h0 : 0 ≤ q) (hqq : q ≤ q') (h1 : q' ≤ 1) :
    interpQ L q ≤ interpQ L q' := by
  simp only [interpQ]
  have hn1 : 1 ≤ L.length := List.length_pos.2 hL
  have hcast : (0 : ℚ) ≤ (L.length : ℚ) - 1 := by
    have : (1 : ℚ) ≤ (L.length : ℚ) := by exact_mod_cast hn1
    linarith
  have h0' : 0 ≤ q' := le_trans h0 hqq
  have h1q : q ≤ 1 := le_trans hqq h1
  have hp0 : 0 ≤ q * ((L.length : ℚ) - 1) := mul_nonneg h0 hcast
  have hp'0 : 0 ≤ q' * ((L.length : ℚ) - 1) := mul_nonneg h0' hcast
  have hpp' : q * ((L.length : ℚ) - 1) ≤ q' * ((L.length : ℚ) - 1) :=
    mul_le_mul_of_nonneg_right hqq hcast
  have hgi : ∀ j k : ℕ, j ≤ k → k < L.length → L.getD j 0 ≤ L.getD k 0 := by
    intro j k hjk hk
    rcases eq_or_lt_of_le hjk with heq | hlt
    · subst heq
      exact le_refl _
    · have hj2 : j < L.length := lt_of_lt_of_le hlt hk.le
      have hget := List.pairwise_iff_get.1 hs ⟨j, hj2⟩ ⟨k, hk⟩ hlt
      rw [List.getD_eq_getElem _ _ hj2, List.getD_eq_getElem _ _ hk]
      simpa [List.get_eq_getElem] using hget
  set p := q * ((L.length : ℚ) - 1) with hpdef
  set p' := q' * ((L.length : ℚ) - 1) with hp'def
  set i := ⌊p⌋₊ with hidef
  set i' := ⌊p'⌋₊ with hi'def
  have hii' : i ≤ i' := Nat.floor_le_floor hpp'
  have hilt : i < L.length := floor_lt_len _ hn1 h0 h1q
  have hi'lt : i' < L.length := floor_lt_len _ hn1 h0' h1
  have hg0 : (0 : ℚ) ≤ p - i := by
    have := Nat.floor_le hp0
    linarith
  have hg1 : p - i ≤ 1 := by
    have := Nat.lt_floor_add_one p
    linarith
  have hg'0 : (0 : ℚ) ≤ p' - i' := by
    have := Nat.floor_le hp'0
    linarith
  by_cases hb : i + 1 < L.length
  · by_cases hb' : i' + 1 < L.length
    · rw [if_pos hb, if_pos hb']
      rcases eq_or_lt_of_le hii' with heq | hlt
      · rw [← heq]
        have hab : L.getD i 0 ≤ L.getD (i + 1) 0 := hgi i (i + 1) (by omega) hb
        have hgg' : p - i ≤ p' - i := by
          have : (i : ℚ) = i := rfl
          linarith
        have hmul := mul_le_mul_of_nonneg_right hgg'
          (show (0 : ℚ) ≤ L.getD (i + 1) 0 - L.getD i 0 by linarith)
        linarith
      · have hi1 : i + 1 ≤ i' := hlt
        have hab : L.getD i 0 ≤ L.getD (i + 1) 0 := hgi i (i + 1) (by omega) hb
        have hbi : L.getD (i + 1) 0 ≤ L.getD i' 0 := hgi (i + 1) i' hi1 hi'lt
        have hadj : L.getD i' 0 ≤ L.getD (i' + 1) 0 := hgi i' (i' + 1) (by omega) hb'
        have hA : L.getD i 0 + (p - i) * (L.getD (i + 1) 0 - L.getD i 0)
            ≤ L.getD (i + 1) 0 := by
          have hmul := mul_le_mul_of_nonneg_right hg1
            (show (0 : ℚ) ≤ L.getD (i + 1) 0 - L.getD i 0 by linarith)
          linarith
        have hA' : L.getD i' 0
            ≤ L.getD i' 0 + (p' - i') * (L.getD (i' + 1) 0 - L.getD i' 0) := by
          have hmul := mul_nonneg hg'0
            (show (0 : ℚ) ≤ L.getD (i' + 1) 0 - L.getD i' 0 by linarith)
          linarith
        linarith
    · rw [if_pos hb, if_neg hb']
      have hi1 : i + 1 ≤ i' := by omega
      have hab : L.getD i 0 ≤ L.getD (i + 1) 0 := hgi i (i + 1) (by omega) hb
      have hbi : L.getD (i + 1) 0 ≤ L.getD i' 0 := hgi (i + 1) i' hi1 hi'lt
      have hA : L.getD i 0 + (p - i) * (L.getD (i + 1) 0 - L.getD i 0)
          ≤ L.getD (i + 1) 0 := by
        have hmul := mul_le_mul_of_nonneg_right hg1
          (show (0 : ℚ) ≤ L.getD (i + 1) 0 - L.getD i 0 by linarith)
        linarith
      linarith
  · have hb' : ¬(i' + 1 < L.length) := by omega
    have hieq : i = i' := by omega
    rw [if_neg hb, if_neg hb', hieq]

/-- On an all-finite nonempty column the two quartiles are finite and
ordered (`Q1 ≤ Q3`). -/
lemma quartiles_fin_mono {col : List EF} (hall : ∀ v ∈ col, v.isFin = true)
    (hne : col ≠ []) :
    ∃ q1v q3v : ℚ, q1EF col = EF.fin q1v ∧ q3EF col = EF.fin q3v ∧ q1v ≤ q3v := by
  have hfilter := filter_nonNan_eq_self hall
  have hsfin := sortEF_all_fin hall
  have hsne := sortEF_ne_nil hne
  obtain ⟨L, hL⟩ := exists_map_fin hsfin
  have hLne : L ≠ [] := by
    intro hcon
    rw [hcon] at hL
    exact hsne (by simpa using hL)
  have hsorted : List.Pairwise (· ≤ ·) L := by
    have hsort := List.sorted_insertionSort efLE col
    rw [show List.insertionSort efLE col = sortEF col from rfl, hL] at hsort
    rw [List.Sorted, List.pairwise_map] at hsort
    exact hsort.imp (fun hab => by simpa [efLE, EF.leB] using hab)
  have hq14 : (0 : ℚ) ≤ mkRat 1 4 ∧ (mkRat 1 4 : ℚ) ≤ mkRat 3 4 ∧ (mkRat 3 4 : ℚ) ≤ 1 := by
    refine ⟨?_, ?_, ?_⟩ <;> decide
  refine ⟨interpQ L (mkRat 1 4), interpQ L (mkRat 3 4), ?_, ?_, ?_⟩
  · rw [q1EF, quantileEF]
    rw [if_neg (by simp [hfilter, List.isEmpty_iff, hne]), hfilter, hL,
      interpEF_map_fin L hLne _ hq14.1 (le_trans hq14.2.1 hq14.2.2)]
  · rw [q3EF, quantileEF]
    rw [if_neg (by simp [hfilter, List.isEmpty_iff, hne]), hfilter, hL,
      interpEF_map_fin L hLne _ (le_trans hq14.1 hq14.2.1) hq14.2.2]
  · exact interpQ_mono L hLne hsorted hq14.1 hq14.2.1 hq14.2.2

/-- Clipping an all-finite column keeps every value finite and inside
`[Q1 - 3 IQR, Q3 + 3 IQR]` of that column. -/
lemma clipCol_bounds {col : List EF} (hall : ∀ v ∈ col, v.isFin = true) :
    ∀ w ∈ clipCol col,
      w.isFin = true
      ∧ EF.leB (loBound col) w = true ∧ EF.leB w (hiBound col) = true := by
  intro w hw
  have hne : col ≠ [] := by
    intro hc
    subst hc
    cases hw
  obtain ⟨q1v, q3v, hq1, hq3, hq13⟩ := quartiles_fin_mono hall hne
  have hlo : loBound col = EF.fin (q1v - 3 * (q3v - q1v)) := by
    rw [loBound, hq1, hq3]
    show EF.fin (qadd q1v (qneg (qmul 3 (qadd q3v (qneg q1v))))) = _
    apply congrArg EF.fin
    rw [qadd_eq, qneg_eq, qmul_eq, qadd_eq, qneg_eq]
    ring
  have hhi : hiBound col = EF.fin (q3v + 3 * (q3v - q1v)) := by
    rw [hiBound, hq1, hq3]
    show EF.fin (qadd q3v (qmul 3 (qadd q3v (qneg q1v)))) = _
    apply congrArg EF.fin
    rw [qadd_eq, qmul_eq, qadd_eq, qneg_eq]
    ring
  obtain ⟨x, hx, hxe⟩ := List.mem_map.1 hw
  obtain ⟨xa, hxa⟩ : ∃ xa, x = EF.fin xa := by
    have := hall x hx
    cases x <;> simp_all [EF.isFin]
  subst hxa
  subst hxe
  rw [clipVal, hlo, hhi]
  simp only [EF.isNan, Bool.false_eq_true, if_false, EF.ltB, decide_eq_true_eq]
  by_cases hc1 : xa < q1v - 3 * (q3v - q1v)
  · rw [if_pos hc1]
    refine ⟨rfl, ?_, ?_⟩ <;> simp only [EF.leB, decide_eq_true_eq] <;> linarith
  · rw [if_neg hc1]
    by_cases hc2 : q3v + 3 * (q3v - q1v) < xa
    · rw [if_pos hc2]
      refine ⟨rfl, ?_, ?_⟩ <;> simp only [EF.leB, decide_eq_true_eq] <;> linarith
    · rw [if_neg hc2]
      refine ⟨rfl, ?_, ?_⟩ <;> simp only [EF.leB, decide_eq_true_eq] <;> linarith

lemma fillnaCol_keeps {col : List EF} {v : EF} (hv : v ∈ col) (hfin : v.isFin = true) :
    v ∈ fillnaCol col := by
  rw [fillnaCol]
  refine List.mem_map.2 ⟨v, hv, ?_⟩
  have : v.isNan = false := by cases v <;> simp_all [EF.isFin, EF.isNan]
  rw [this]
  rfl

lemma replaceInfCol_keeps {col : List EF} {v : EF} (hv : v ∈ col) (hfin : v.isFin = true) :
    v ∈ replaceInfCol col := by
  rw [replaceInfCol]
  refine List.mem_map.2 ⟨v, hv, ?_⟩
  cases v <;> simp_all [EF.isFin]

lemma replaceInfCol_nanOrFin (col : List EF) :
    ∀ w ∈ replaceInfCol col, w.isFin = true ∨ w = EF.nan := by
  intro w hw
  rw [replaceInfCol] at hw
  obtain ⟨x, _, hxe⟩ := List.mem_map.1 hw
  subst hxe
  cases x <;> simp [EF.isFin]

/-- Columns with at least one finite value come out of the
impute-replace-impute chain entirely finite. -/
lemma imputeCol_fin {col : List EF} (h : ∃ v ∈ col, v.isFin = true) :
    ∀ w ∈ imputeCol col, w.isFin = true := by
  obtain ⟨v, hv, hfin⟩ := h
  have hv2 : v ∈ replaceInfCol (fillnaCol col) :=
    replaceInfCol_keeps (fillnaCol_keeps hv hfin) hfin
  have hall2 := replaceInfCol_nanOrFin (fillnaCol col)
  have hq12 : (0 : ℚ) ≤ mkRat 1 2 ∧ (mkRat 1 2 : ℚ) ≤ 1 := by
    constructor <;> decide
  have hmed : (medianEF (replaceInfCol (fillnaCol col))).isFin = true := by
    rw [medianEF]
    exact quantileEF_fin hq12.1 hq12.2 ⟨v, hv2, hfin⟩ hall2
  intro w hw
  rw [imputeCol, fillnaCol] at hw
  obtain ⟨x, hx, hxe⟩ := List.mem_map.1 hw
  subst hxe
  by_cases hxn : x.isNan = true
  · rw [if_pos hxn]
    exact hmed
  · rw [if_neg hxn]
    rcases hall2 x hx with hf | hn
    · exact hf
    · subst hn
      simp [EF.isNan] at hxn

lemma imputeCol_nil : imputeCol [] = [] := rfl

lemma labelEncode_fin (vs : List String) : ∀ v ∈ labelEncode vs, v.isFin = true := by
  intro v hv
  rw [labelEncode] at hv
  obtain ⟨s, _, hse⟩ := List.mem_map.1 hv
  subst hse
  rfl

/-- Origin of a column of the numeric matrix: either an original
float-typed column of the table, or the integer encoding of an
object-typed column. -/
lemma numericMatrix_origin {t : FTable} {c0 : List EF} (h : c0 ∈ numericMatrix t) :
    (∃ p ∈ t, p.2 = PCol.numCol c0) ∨ (∃ vs, c0 = labelEncode vs) := by
  rw [numericMatrix] at h
  obtain ⟨p', hp', hmatch⟩ := List.mem_filterMap.1 h
  rw [encodeTable] at hp'
  obtain ⟨p, hp, hpe⟩ := List.mem_map.1 hp'
  cases hp2 : p.2 with
  | strCol vs =>
    simp only [hp2] at hpe
    by_cases hsd : p.1 = "src_ip" ∨ p.1 = "dst_ip"
    · rw [if_pos hsd] at hpe
      subst hpe
      simp only [hp2] at hmatch
      cases hmatch
    · rw [if_neg hsd] at hpe
      subst hpe
      injection hmatch with h2
      exact Or.inr ⟨vs, h2.symm⟩
  | numCol vs =>
    simp only [hp2] at hpe
    subst hpe
    simp only [hp2] at hmatch
    injection hmatch with h2
    subst h2
    exact Or.inl ⟨p, hp, hp2⟩

/-- Every column at the clipping stage is entirely finite, given that
every original float-typed column is empty or has a finite value. -/
lemma preClip_fin {t : FTable}
    (h : ∀ p ∈ t, ∀ vs, p.2 = PCol.numCol vs → vs = [] ∨ ∃ v ∈ vs, v.isFin = true) :
    ∀ col ∈ preClip (numericMatrix t), ∀ v ∈ col, v.isFin = true := by
  intro col hcol
  rw [preClip, dropConstant] at hcol
  have hcol2 : col ∈ (numericMatrix t).map imputeCol := List.mem_of_mem_filter hcol
  obtain ⟨c0, hc0, hc0e⟩ := List.mem_map.1 hcol2
  subst hc0e
  rcases numericMatrix_origin hc0 with ⟨p, hp, hp2⟩ | ⟨vs, hvs⟩
  · rcases h p hp c0 hp2 with hnil | hfin
    · subst hnil
      rw [imputeCol_nil]
      intro v hv
      cases hv
    · exact imputeCol_fin hfin
  · subst hvs
    cases vs with
    | nil =>
      rw [show labelEncode [] = [] from rfl, imputeCol_nil]
      intro v hv
      cases hv
    | cons s rest =>
      refine imputeCol_fin ⟨EF.fin ((List.indexOf s
        ((List.insertionSort (fun a b : String => a ≤ b) (s :: rest)).dedup) : ℕ) : ℚ), ?_, rfl⟩
      rw [labelEncode]
      exact List.mem_map.2 ⟨s, List.mem_cons_self _ _, rfl⟩

/-! ## Claim C3: finiteness of the cleaned feature matrix -/

/-- C3 counterexample: a table whose single float column is all-NaN
defeats every cleaning step — the column's median is NaN so both
`fillna` passes fill nothing, `std()` of the column is NaN (hence
`std() == 0` is false and the column is not dropped), the quantile
bounds are NaN so `clip` leaves the values — and the returned feature
matrix still contains NaN, refuting "every value is finite for every
input table". -/
theorem C3_counterexample_all_nan_column :
    cleanTable [(("f" : String), PCol.numCol [EF.nan, EF.nan])] = [[EF.nan, EF.nan]] := by
  decide

/-- C3 amended: after the cleaning steps of `preprocess_unified_data`
(categorical encoding, dropping non-numeric columns, median
imputation, infinity replacement with re-imputation, zero-variance
drop, IQR clipping) every value of the resulting feature matrix is
finite, **provided** every float-typed input column is empty or
contains at least one finite value (integer-encoded categorical
columns always satisfy this); a column with no finite entry survives
cleaning still holding NaN. -/
theorem C3_cleaned_values_finite (t : FTable)
    (h : ∀ p ∈ t, ∀ vs, p.2 = PCol.numCol vs → vs = [] ∨ ∃ v ∈ vs, v.isFin = true) :
    ∀ col ∈ cleanTable t, ∀ v ∈ col, v.isFin = true := by
  intro col hcol v hv
  rw [cleanTable, cleanCols] at hcol
  obtain ⟨c0, hc0, hc0e⟩ := List.mem_map.1 hcol
  subst hc0e
  have hfin := preClip_fin h c0 hc0
  exact (clipCol_bounds hfin v hv).1

/-- Concrete table of the C3/C1 witnesses: an object column to be
encoded and two float columns containing NaN and infinities next to
finite values. -/
def tableExample : FTable :=
  [(("proto" : String), PCol.strCol ["tcp", "udp", "tcp"]),
   (("f1" : String), PCol.numCol [EF.nan, EF.fin 1, EF.pinf]),
   (("f2" : String), PCol.numCol [EF.fin 2, EF.fin 5, EF.ninf])]

lemma tableExample_ok :
    ∀ p ∈ tableExample, ∀ vs, p.2 = PCol.numCol vs →
      vs = [] ∨ ∃ v ∈ vs, v.isFin = true := by
  intro p hp vs hveq
  rw [tableExample] at hp
  cases hp with
  | head => cases hveq
  | tail _ hp2 =>
    cases hp2 with
    | head =>
      injection hveq with h2
      subst h2
      exact Or.inr ⟨EF.fin 1, by decide, rfl⟩
    | tail _ hp3 =>
      cases hp3 with
      | head =>
        injection hveq with h2
        subst h2
        exact Or.inr ⟨EF.fin 2, by decide, rfl⟩
      | tail _ hp4 => cases hp4

/-- C3 witness: the concrete dirty table cleans to an all-finite
matrix. -/
theorem C3_cleaned_values_finite_witness :
    (cleanTable tableExample).all (fun col => col.all (fun v => v.isFin)) = true := by
  rw [List.all_eq_true]
  intro col hcol
  rw [List.all_eq_true]
  intro v hv
  exact C3_cleaned_values_finite tableExample tableExample_ok col hcol v hv

/-! ## Claim C1: IQR clipping bounds -/

/-- The training column used by the C1 counterexample: quartiles
`Q1 = 3/4`, `Q3 = 9/4`, so the upper clipping bound is
`Q3 + 3·IQR = 27/4`. -/
def trainColExample : List EF := [EF.fin 0, EF.fin 1, EF.fin 2, EF.fin 3]

/-- Probe classifier whose prediction records whether every feature of
the row it actually receives lies below the training upper bound
`27/4`. -/
def clipProbe : PredModel (List ℚ) Bool :=
  { predict := fun X => X.map (fun row => row.all (fun v => decide (v ≤ mkRat 27 4)))
    predictProba := none }

/-- C1 counterexample: the claim says the training-split clipping
bounds are applied unchanged to inference-time data.  The inference
path `predict_with_confidence` performs no clipping whatsoever: for a
training column with upper bound `27/4`, an inference row holding the
value `100 > 27/4` reaches the model as-is — the probe model observes
the out-of-bounds value (prediction `false`), which clipping to the
bounds would have made impossible. -/
theorem C1_counterexample_inference_unclipped :
    hiBound trainColExample = EF.fin (mkRat 27 4)
    ∧ (mkRat 27 4 : ℚ) < 100
    ∧ (predictWithConfidence clipProbe [[(100 : ℚ)]]).1 = [false] :=
  ⟨by decide, by decide, by decide⟩

/-- C1 amended: the clipping bounds `Q1 − 3·IQR` and `Q3 + 3·IQR` are
computed per column on the **full** cleaned matrix *before* the
train/test split — not on the training split — and every value of the
clipped matrix (from which both splits are then drawn) lies within the
bounds of its column, provided every float-typed input column is empty
or has a finite value; inference-time data receives no clipping at all
(see the counterexample theorem). -/
theorem C1_clip_bounds_full_matrix (t : FTable)
    (h : ∀ p ∈ t, ∀ vs, p.2 = PCol.numCol vs → vs = [] ∨ ∃ v ∈ vs, v.isFin = true) :
    cleanTable t = (preClip (numericMatrix t)).map clipCol
    ∧ ∀ col ∈ preClip (numericMatrix t), ∀ w ∈ clipCol col,
        EF.leB (loBound col) w = true ∧ EF.leB w (hiBound col) = true := by
  refine ⟨rfl, ?_⟩
  intro col hcol w hw
  have hfin := preClip_fin h col hcol
  exact (clipCol_bounds hfin w hw).2

/-- C1 witness: on the concrete dirty table every clipped value sits
inside the per-column bounds of the pre-split matrix. -/
theorem C1_clip_bounds_witness :
    cleanTable tableExample = (preClip (numericMatrix tableExample)).map clipCol
    ∧ (preClip (numericMatrix tableExample)).all
        (fun col => (clipCol col).all
          (fun w => EF.leB (loBound col) w && EF.leB w (hiBound col))) = true := by
  have h := C1_clip_bounds_full_matrix tableExample tableExample_ok
  refine ⟨h.1, ?_⟩
  rw [List.all_eq_true]
  intro col hcol
  rw [List.all_eq_true]
  intro w hw
  have h2 := h.2 col hcol w hw
  rw [h2.1, h2.2]
  rfl

/-! ## Claim C5: idempotence of label standardization -/

lemma lookup_mem {α β : Type} [BEq α] [LawfulBEq α] {l : List (α × β)} {k : α} {v : β}
    (h : l.lookup k = some v) : (k, v) ∈ l := by
  induction l with
  | nil => cases h
  | cons p t ih =>
    obtain ⟨pk, pv⟩ := p
    rw [List.lookup] at h
    cases hk : k == pk
    · simp only [hk] at h
      exact List.mem_cons_of_mem _ (ih h)
    · simp only [hk] at h
      have hkeq : k = pk := eq_of_beq hk
      subst hkeq
      injection h with h2
      subst h2
      exact List.mem_cons_self _ _

lemma upPairs_vals : ∀ p ∈ upPairs,
    upPairs.lookup p.2 = none ∧ isWS p.1 = false ∧ isWS p.2 = false := by decide

lemma upChar_idem (c : Char) : upChar (upChar c) = upChar c := by
  cases hl : upPairs.lookup c with
  | none => simp [upChar, hl]
  | some v =>
    have hv := (upPairs_vals _ (lookup_mem hl)).1
    simp [upChar, hl, hv]

lemma isWS_upChar (c : Char) : isWS (upChar c) = isWS c := by
  cases hl : upPairs.lookup c with
  | none => simp [upChar, hl]
  | some v =>
    have h1 := (upPairs_vals _ (lookup_mem hl)).2.1
    have h2 := (upPairs_vals _ (lookup_mem hl)).2.2
    simp [upChar, hl, h1, h2]

lemma stripL_eq (l : List Char) :
    stripL l = List.rdropWhile isWS (List.dropWhile isWS l) := rfl

lemma stripL_head (l : List Char) (h : 0 < (stripL l).length) :
    isWS ((stripL l).get ⟨0, h⟩) = false := by
  have hpre : stripL l <+: List.dropWhile isWS l := by
    rw [stripL_eq]
    exact List.rdropWhile_prefix _ _
  have hlen : 0 < (List.dropWhile isWS l).length := lt_of_lt_of_le h hpre.length_le
  have hd := List.dropWhile_get_zero_not isWS l hlen
  rw [List.get_eq_getElem] at hd ⊢
  rw [← List.IsPrefix.getElem hpre h] at hd
  simpa using hd

lemma dropWhile_stripL (l : List Char) :
    List.dropWhile isWS (stripL l) = stripL l := by
  rw [List.dropWhile_eq_self_iff]
  intro hl
  have h2 := stripL_head l hl
  rw [List.get_eq_getElem] at h2
  simp [h2]

lemma rdropWhile_stripL (l : List Char) :
    List.rdropWhile isWS (stripL l) = stripL l := by
  rw [stripL_eq, List.rdropWhile_idempotent]

lemma stripL_idem (l : List Char) : stripL (stripL l) = stripL l := by
  rw [stripL_eq (stripL l), dropWhile_stripL, rdropWhile_stripL]

lemma dropWhile_map_upChar (l : List Char) :
    List.dropWhile isWS (l.map upChar) = (List.dropWhile isWS l).map upChar := by
  rw [List.dropWhile_map]
  have hp : (isWS ∘ upChar) = isWS := by
    funext c
    exact isWS_upChar c
  rw [hp]

lemma stripL_map_upChar (l : List Char) :
    stripL (l.map upChar) = (stripL l).map upChar := by
  simp only [stripL]
  rw [dropWhile_map_upChar, ← List.map_reverse, dropWhile_map_upChar, ← List.map_reverse]

lemma map_upChar_idem (l : List Char) : (l.map upChar).map upChar = l.map upChar := by
  rw [List.map_map]
  congr 1
  funext c
  exact upChar_idem c

lemma norm_fixed (s : String) :
    upperStr (stripStr (upperStr (stripStr s))) = upperStr (stripStr s) := by
  show (⟨(stripL ((stripL s.data).map upChar)).map upChar⟩ : String)
      = ⟨(stripL s.data).map upChar⟩
  rw [stripL_map_upChar, stripL_idem, map_upChar_idem]

lemma labelTable_vals : ∀ p ∈ labelTable, standardizeLabel p.2 = p.2 := by decide

/-- C5: label standardization (whitespace strip and upper-casing
followed by the fixed collapsing table with pass-through for unmapped
tokens) is idempotent on every label token: mapped outputs like
`NetBIOS`, `Portmap`, `UDPLag` re-normalize to table keys that map
back to themselves, and pass-through tokens are already
strip/upper-fixed, so unmapped on the second pass as well. -/
theorem C5_standardize_idempotent (s : String) :
    standardizeLabel (standardizeLabel s) = standardizeLabel s := by
  cases hl : labelTable.lookup (upperStr (stripStr s)) with
  | some v =>
    have h1 : standardizeLabel s = v := by
      simp only [standardizeLabel, hl, Option.getD_some]
    rw [h1]
    exact labelTable_vals _ (lookup_mem hl)
  | none =>
    have h1 : standardizeLabel s = upperStr (stripStr s) := by
      simp only [standardizeLabel, hl, Option.getD_none]
    rw [h1]
    simp only [standardizeLabel, norm_fixed, hl, Option.getD_none]

/-! ## Claim C4: model selection rule -/

lemma foldl_selectStep_score (cs : List CandEval) (acc : String × ℚ) :
    (cs.foldl selectStep acc).2 = cs.foldl (fun s c => max s c.f1) acc.2 := by
  induction cs generalizing acc with
  | nil => rfl
  | cons c t ih =>
    rw [List.foldl_cons, List.foldl_cons, ih]
    congr 1
    rcases lt_or_le acc.2 c.f1 with h | h
    · rw [selectStep, if_pos h, max_eq_right h.le]
    · rw [selectStep, if_neg (not_lt.2 h), max_eq_left h]

lemma le_foldl_max (t : List CandEval) (a : ℚ) :
    a ≤ t.foldl (fun s c => max s c.f1) a := by
  induction t generalizing a with
  | nil => exact le_refl a
  | cons b t ih =>
    rw [List.foldl_cons]
    exact le_trans (le_max_left a b.f1) (ih _)

lemma foldl_max_ge (cs : List CandEval) (a : ℚ) :
    ∀ c ∈ cs, c.f1 ≤ cs.foldl (fun s c => max s c.f1) a := by
  induction cs generalizing a with
  | nil => intro c hc; cases hc
  | cons b t ih =>
    intro c hc
    rw [List.foldl_cons]
    rcases List.mem_cons.1 hc with rfl | hc2
    · exact le_trans (le_max_right a c.f1) (le_foldl_max t _)
    · exact ih _ c hc2

lemma foldl_selectStep_const (cs : List CandEval) (acc : String × ℚ)
    (h : ∀ c ∈ cs, c.f1 ≤ acc.2) : cs.foldl selectStep acc = acc := by
  induction cs with
  | nil => rfl
  | cons c t ih =>
    rw [List.foldl_cons, selectStep, if_neg (not_lt.2 (h c (List.mem_cons_self c t)))]
    exact ih (fun d hd => h d (List.mem_cons_of_mem _ hd))

lemma selectAux (cs : List CandEval) (acc : String × ℚ)
    (h : ∃ c ∈ cs, acc.2 < c.f1) :
    (∃ c ∈ cs, c.name = (cs.foldl selectStep acc).1 ∧ c.f1 = (cs.foldl selectStep acc).2)
    ∧ acc.2 < (cs.foldl selectStep acc).2
    ∧ cs.find? (fun c => decide ((cs.foldl selectStep acc).2 ≤ c.f1))
        = some ⟨(cs.foldl selectStep acc).1, (cs.foldl selectStep acc).2⟩ := by
  induction cs generalizing acc with
  | nil =>
    obtain ⟨c, hc, _⟩ := h
    cases hc
  | cons c t ih =>
    rw [List.foldl_cons]
    by_cases hca : acc.2 < c.f1
    · rw [selectStep, if_pos hca]
      by_cases ht : ∃ d ∈ t, c.f1 < d.f1
      · obtain ⟨ih1, ih2, ih3⟩ := ih (c.name, c.f1) ht
        refine ⟨?_, lt_trans hca ih2, ?_⟩
        · obtain ⟨d, hd, h1, h2⟩ := ih1
          exact ⟨d, List.mem_cons_of_mem _ hd, h1, h2⟩
        · rw [List.find?_cons_of_neg, ih3]
          simp only [decide_eq_true_eq]
          exact not_le.2 ih2
      · push_neg at ht
        rw [foldl_selectStep_const t (c.name, c.f1) ht]
        refine ⟨⟨c, List.mem_cons_self c t, rfl, rfl⟩, hca, ?_⟩
        rw [List.find?_cons_of_pos]
        simp only [decide_eq_true_eq]
        exact le_refl c.f1
    · rw [selectStep, if_neg hca]
      have hex : ∃ d ∈ t, acc.2 < d.f1 := by
        obtain ⟨d, hd, hlt⟩ := h
        rcases List.mem_cons.1 hd with rfl | hd2
        · exact absurd hlt hca
        · exact ⟨d, hd2, hlt⟩
      obtain ⟨ih1, ih2, ih3⟩ := ih acc hex
      refine ⟨?_, ih2, ?_⟩
      · obtain ⟨d, hd, h1, h2⟩ := ih1
        exact ⟨d, List.mem_cons_of_mem _ hd, h1, h2⟩
      · rw [List.find?_cons_of_neg, ih3]
        simp only [decide_eq_true_eq]
        exact not_le.2 (lt_of_le_of_lt (le_of_not_lt hca) ih2)

/-- C4 counterexample: with a single candidate whose held-out weighted
F1 is exactly `0` — the highest (indeed only) F1 — the loop selects
nothing: `best_score` starts at `0` and only a *strictly greater* F1
replaces the initial `(None, 0, "")` state, so the selected name stays
the initial `""` rather than `"A"`. -/
theorem C4_counterexample_zero_f1 :
    (∀ c ∈ [CandEval.mk ("A") 0], c.f1 ≤ (CandEval.mk ("A") 0).f1)
    ∧ (selectBest [CandEval.mk ("A") 0]).1 ≠ "A"
    ∧ (selectBest [CandEval.mk ("A") 0]).1 = "" := by decide

/-- C4 amended: provided some candidate has strictly positive held-out
weighted F1 (so the `best_score = 0` initialization is exceeded),
`train_best_model` selects the candidate with the highest held-out
weighted F1, ties going to the first learner evaluated (the `find?`
conjunct: the first candidate whose F1 reaches the selected score *is*
the selected one); when at least three candidates succeeded, a
soft-voting ensemble of the top three by held-out F1 (stable
descending order) is additionally built, and it becomes the selected
best if and only if its weighted F1 strictly exceeds the provisional
best. -/
theorem C4_selection_rule (cands : List CandEval) (ensembleF1 : ℚ)
    (h : ∃ c ∈ cands, 0 < c.f1) :
    (∃ c ∈ cands, c.name = (selectBest cands).1 ∧ c.f1 = (selectBest cands).2)
    ∧ (∀ c ∈ cands, c.f1 ≤ (selectBest cands).2)
    ∧ (cands.find? (fun c => decide ((selectBest cands).2 ≤ c.f1))
        = some ⟨(selectBest cands).1, (selectBest cands).2⟩)
    ∧ (3 ≤ cands.length →
        trainBestModel cands ensembleF1
          = (if (selectBest cands).2 < ensembleF1
             then ((("Ensemble" : String), ensembleF1), some (topThree cands))
             else (selectBest cands, some (topThree cands))))
    ∧ (cands.length < 3 → trainBestModel cands ensembleF1 = (selectBest cands, none)) := by
  obtain ⟨a1, _, a3⟩ := selectAux cands ((("" : String), (0 : ℚ))) h
  refine ⟨a1, ?_, a3, ?_, ?_⟩
  · intro c hc
    rw [selectBest, foldl_selectStep_score]
    exact foldl_max_ge cands 0 c hc
  · intro h3
    rw [trainBestModel, if_pos h3]
  · intro h3
    rw [trainBestModel, if_neg (not_le.2 h3)]

/-- Concrete candidate list of the C4 witness: a tie on the best F1
between the first two learners plus a weaker third. -/
def candsExample : List CandEval :=
  [⟨"A", mkRat 1 2⟩, ⟨"B", mkRat 1 2⟩, ⟨"C", mkRat 1 4⟩]

/-- C4 witness: on three concrete candidates with a top-score tie, the
selection picks the first top candidate `A`, and the ensemble clause
holds at a concrete ensemble F1. -/
theorem C4_selection_rule_witness :
    candsExample.any
        (fun c => decide (c.name = (selectBest candsExample).1)
          && decide (c.f1 = (selectBest candsExample).2)) = true
    ∧ candsExample.all (fun c => decide (c.f1 ≤ (selectBest candsExample).2)) = true
    ∧ candsExample.find? (fun c => decide ((selectBest candsExample).2 ≤ c.f1))
        = some ⟨(selectBest candsExample).1, (selectBest candsExample).2⟩
    ∧ trainBestModel candsExample (mkRat 2 5)
        = (if (selectBest candsExample).2 < mkRat 2 5
           then ((("Ensemble" : String), mkRat 2 5), some (topThree candsExample))
           else (selectBest candsExample, some (topThree candsExample))) := by
  have h := C4_selection_rule candsExample (mkRat 2 5) (by decide)
  refine ⟨?_, ?_, h.2.2.1, h.2.2.2.1 (by decide)⟩
  · rw [List.any_eq_true]
    obtain ⟨c, hc, h1, h2⟩ := h.1
    refine ⟨c, hc, ?_⟩
    rw [decide_eq_true h1, decide_eq_true h2]
    rfl
  · rw [List.all_eq_true]
    intro c hc
    exact decide_eq_true (h.2.1 c hc)

/-! ## Claim C2: column-name normalization of `Flow Packets/s` -/

/-- C2: the claim states that a raw header `Flow Packets/s` and a raw
header `flow_pkts_s` both normalize to `flow_pkts_s`.  Evaluating
`normalize_column_names` shows otherwise: the headers are lower-cased
and underscore-ized *before* the lookup in `column_mappings`, whose
keys keep their original spacing and case, so `Flow Packets/s` becomes
`flow_packets/s` (no mapping entry or substring rule matches it) while
`flow_pkts_s` stays `flow_pkts_s`: the two files do **not** share one
column.  The mapping table itself documents the intended target
(`'Flow Packets/s': 'flow_pkts_s'`), so the code contradicts its own
mapping table — a code bug, with this theorem evaluating the code at
the failing input. -/
theorem C2_normalization_failing_input :
    (normalizeColumnNames (⟨["Flow Packets/s"], ()⟩ : DF Unit)).1.columns = ["flow_packets/s"]
    ∧ (normalizeColumnNames (⟨["flow_pkts_s"], ()⟩ : DF Unit)).1.columns = ["flow_pkts_s"]
    ∧ ("flow_packets/s" : String) ≠ "flow_pkts_s" := by decide

/-! ## Claim C6: label standardization scenario -/

/-- C6: standardizing the label list `["normal", "DDoS", "ddos"]`
yields exactly `["BENIGN", "UDP", "UDP"]` (upper-casing sends `normal`
to `NORMAL → BENIGN` and both DDoS variants to `DDOS → UDP`). -/
theorem C6_label_scenario :
    ["normal", "DDoS", "ddos"].map standardizeLabel = ["BENIGN", "UDP", "UDP"] := by decide

/-! ## Claim C9: frame effect of `normalize_column_names` -/

/-- C9 counterexample: `normalize_column_names` is *not* free of side
effects on the frame passed in — its first statement assigns
stripped/underscored/lower-cased labels to `df.columns` of the caller's
object, so after the call the input frame differs from what was passed
(here its header `Flow Packets/s` has become `flow_packets/s`). -/
theorem C9_counterexample_mutation :
    (normalizeColumnNames (⟨["Flow Packets/s"], ()⟩ : DF Unit)).2
      ≠ (⟨["Flow Packets/s"], ()⟩ : DF Unit) := by decide

/-- C9 amended: `normalize_column_names` mutates exactly the input
frame's column labels (to their stripped/underscored/lower-cased
forms) and leaves the cell data untouched; the frame it returns is a
new value carrying the same data with the mapping applied on top of
the mutated labels. -/
theorem C9_normalize_frame_effect {δ : Type} (df : DF δ) :
    (normalizeColumnNames df).2.columns = df.columns.map basicNorm
    ∧ (normalizeColumnNames df).2.data = df.data
    ∧ (normalizeColumnNames df).1
        = ⟨(df.columns.map basicNorm).map mapOneColumn, df.data⟩ :=
  ⟨rfl, rfl, rfl⟩

/-! ## Claim C10: all-or-nothing artifact persistence -/

/-- C10: `save_model_and_scaler` persists either the complete
three-unit bundle (model, scaler, metadata — written exactly when both
`best_model` and `scaler` are set, returning the three paths) or
nothing at all (no file written, `(None, None, None)` returned); a
partial bundle is never written. -/
theorem C10_save_all_or_nothing {μ σ : Type} (st : PipelineState μ σ) (name : String) :
    (st.bestModel.isSome = true ∧ st.scaler.isSome = true →
      saveModelAndScaler st name =
        ([(name ++ (".pkl"), ArtifactKind.model),
          (name ++ ("_scaler.pkl"), ArtifactKind.scaler),
          (name ++ ("_metadata.pkl"), ArtifactKind.metadata)],
         (some (name ++ (".pkl")), some (name ++ ("_scaler.pkl")),
          some (name ++ ("_metadata.pkl")))))
    ∧ (¬(st.bestModel.isSome = true ∧ st.scaler.isSome = true) →
      saveModelAndScaler st name = ([], (none, none, none))) := by
  constructor
  · intro h
    rw [saveModelAndScaler, if_pos (by rw [h.1, h.2]; rfl)]
  · intro h
    rw [saveModelAndScaler, if_neg (by simpa using h)]

/-- C10 witness: with both units set the full bundle and its three
paths come back; with the model unset nothing is written. -/
theorem C10_save_witness :
    saveModelAndScaler (⟨some 0, some 0⟩ : PipelineState ℕ ℕ) ("m")
      = ([("m.pkl", ArtifactKind.model), ("m_scaler.pkl", ArtifactKind.scaler),
          ("m_metadata.pkl", ArtifactKind.metadata)],
         (some ("m.pkl"), some ("m_scaler.pkl"), some ("m_metadata.pkl")))
    ∧ saveModelAndScaler (⟨none, some 0⟩ : PipelineState ℕ ℕ) ("m")
      = ([], (none, none, none)) :=
  ⟨(C10_save_all_or_nothing (⟨some 0, some 0⟩ : PipelineState ℕ ℕ) ("m")).1
      ⟨rfl, rfl⟩,
   (C10_save_all_or_nothing (⟨none, some 0⟩ : PipelineState ℕ ℕ) ("m")).2
      (by simp)⟩

end DDoS
